import Mathlib

/-!
Verification development for the data2neo (rel2graph) conversion engine.

The repository converts rows of relational data into a property graph,
driven by a declarative conversion schema.  The development below gives a
shallow embedding of the core data model (values, attributes, resources,
nodes, relationships, subgraphs), the factory graph (attribute factories,
node factories, relationship factories, pre and post processor wrappers),
the resource iterators (in particular IteratorIterator), the graph writer
(merge-by-primary-attribute semantics, MERGE_RELATION deduplication) and
the two-phase execution engine with batch checkpointing, and proves the
documented behavioural properties about them.

The Python implementation modules of the repository (converter.py,
factories, resource_iterator.py, py2neo_extensions) are not shipped in
this source snapshot; only their documentation, schema files and tests
are.  Consequently the executable definitions below are modelled from the
repository's own documentation and from the specification, as stated in
each doc comment.
-/

/-- Scalar property values handled by the conversion: integers, strings,
booleans and null.  The documentation additionally mentions floats and
temporal values, which play no role in the properties proved here and are
representable through the string rendering path. -/
inductive Value where
  | vInt : Int → Value
  | vStr : String → Value
  | vBool : Bool → Value
  | vNull : Value
deriving DecidableEq, Repr

/-- Rendering of a value to a string, used for label expressions and
relationship types computed from attribute factories. -/
def Value.render : Value → String
  | .vInt n => toString n
  | .vStr s => s
  | .vBool b => toString b
  | .vNull => "None"

/-- An attribute is an immutable pair of a key and a value
(rel2graph `Attribute`). -/
structure Attribute where
  key : String
  value : Value
deriving DecidableEq, Repr

/-- Modelled from the spec: a `Resource` wraps one relational entity.  It
carries a dispatch `type` string and a keyed accessor over attribute
values.  The concrete Resource classes live in the relational modules,
which are not part of this snapshot. -/
structure Resource where
  rtype : String
  fields : List (String × Value)
deriving DecidableEq, Repr

/-- Keyed read access on a resource (`resource[key]`); absent keys read
as null. -/
def Resource.get (r : Resource) (key : String) : Value :=
  match r.fields.lookup key with
  | some v => v
  | none => Value.vNull

/-! ### Engine configuration defaults (Converter options)

Modelled from the spec and from docs/source/converter.rst: the Converter
implementation is not under src/; its documentation states that the
number of worker processes defaults to `number of cores - 2` and the
batch size defaults to `10000`. -/

/-- Default number of Converter workers for a machine with `cores`
cores: `cores - 2` (docs/source/converter.rst). -/
def defaultNumWorkers (cores : Nat) : Nat := cores - 2

/-- Default Converter batch size: 10000 resources per batch
(docs/source/converter.rst). -/
def defaultBatchSize : Nat := 10000

/-! ### Resource iterators

Modelled from the spec and docs/api.md: `ResourceIterator` is a
restartable finite sequence of resources with operations `next`
(returning null once traversed), `reset_to_first` and `__len__`.
`IteratorIterator` iterates over a list of sub-iterators: once one
sub-iterator is traversed, `next` returns the first element of the next
sub-iterator, and returns null when all are traversed; its length is the
sum of the sub-iterators' lengths.  The implementation file
resource_iterator.py is not under src/. -/

/-- A basic resource iterator over a list of resources with a current
position. -/
structure ListIterator where
  elems : List Resource
  pos : Nat
deriving DecidableEq, Repr

/-- Advance-to-next on a basic iterator: yields the element at the
current position (or none once traversed) and the advanced iterator. -/
def ListIterator.next (it : ListIterator) : Option Resource × ListIterator :=
  match it.elems.drop it.pos with
  | [] => (none, it)
  | r :: _ => (some r, { it with pos := it.pos + 1 })

/-- Reset-to-first on a basic iterator. -/
def ListIterator.reset_to_first (it : ListIterator) : ListIterator :=
  { it with pos := 0 }

/-- Length of a basic iterator (total number of resources). -/
def ListIterator.len (it : ListIterator) : Nat := it.elems.length

/-- The resources a basic iterator has yet to yield. -/
def ListIterator.remaining (it : ListIterator) : List Resource :=
  it.elems.drop it.pos

/-- Modelled from the spec: `IteratorIterator` wraps a list of
sub-iterators. -/
structure IteratorIterator where
  iterators : List ListIterator
deriving DecidableEq, Repr

/-- Advance-to-next over a list of sub-iterators: take the next element
of the first non-exhausted sub-iterator, in list order. -/
def nextIters : List ListIterator → Option Resource × List ListIterator
  | [] => (none, [])
  | sub :: rest =>
    match sub.next with
    | (some r, sub2) => (some r, sub2 :: rest)
    | (none, sub2) =>
      let p := nextIters rest
      (p.1, sub2 :: p.2)

/-- Advance-to-next on an IteratorIterator. -/
def IteratorIterator.next (it : IteratorIterator) : Option Resource × IteratorIterator :=
  let p := nextIters it.iterators
  (p.1, ⟨p.2⟩)

/-- Reset-to-first on an IteratorIterator: resets every sub-iterator and
repositions at the first element of the first sub-iterator. -/
def IteratorIterator.reset_to_first (it : IteratorIterator) : IteratorIterator :=
  ⟨it.iterators.map ListIterator.reset_to_first⟩

/-- Length of an IteratorIterator: the sum of the sub-iterators'
lengths. -/
def IteratorIterator.len (it : IteratorIterator) : Nat :=
  (it.iterators.map ListIterator.len).sum

/-- The resources an IteratorIterator has yet to yield. -/
def IteratorIterator.remaining (it : IteratorIterator) : List Resource :=
  (it.iterators.map ListIterator.remaining).flatten

/-- Full traversal of an IteratorIterator by repeated `next` calls,
bounded by an explicit fuel. -/
def collectIter : Nat → IteratorIterator → List Resource
  | 0, _ => []
  | Nat.succ fuel, it =>
    match it.next with
    | (none, _) => []
    | (some r, it2) => r :: collectIter fuel it2

/-- The remaining resources of a list of sub-iterators, in list order. -/
def remainingAll (its : List ListIterator) : List Resource :=
  (its.map ListIterator.remaining).flatten

theorem listIter_next_fst (it : ListIterator) :
    (it.next).1 = it.remaining.head? := by
  unfold ListIterator.next ListIterator.remaining
  cases h : it.elems.drop it.pos with
  | nil => simp
  | cons r rest => simp

theorem listIter_next_snd (it : ListIterator) :
    (it.next).2.remaining = it.remaining.tail := by
  unfold ListIterator.next ListIterator.remaining
  cases h : it.elems.drop it.pos with
  | nil => simp [ListIterator.remaining, h]
  | cons r rest =>
    simp only [ListIterator.remaining]
    rw [← List.tail_drop, h]

theorem nextIters_fst (its : List ListIterator) :
    (nextIters its).1 = (remainingAll its).head? := by
  induction its with
  | nil => simp [nextIters, remainingAll]
  | cons sub rest ih =>
    have hf := listIter_next_fst sub
    have hs := listIter_next_snd sub
    unfold nextIters
    cases h : sub.next with
    | mk o sub2 =>
      cases o with
      | some r =>
        rw [h] at hf
        simp only [remainingAll, List.map_cons, List.flatten_cons]
        cases hr : sub.remaining with
        | nil => rw [hr] at hf; simp at hf
        | cons a t =>
          rw [hr] at hf
          simp at hf
          simp [hf]
      | none =>
        rw [h] at hf
        simp only [remainingAll, List.map_cons, List.flatten_cons]
        have hrem : sub.remaining = [] := by
          cases hr : sub.remaining with
          | nil => rfl
          | cons a t => rw [hr] at hf; simp at hf
        rw [hrem]
        simpa [remainingAll] using ih

theorem nextIters_snd (its : List ListIterator) :
    remainingAll (nextIters its).2 = (remainingAll its).tail := by
  induction its with
  | nil => simp [nextIters, remainingAll]
  | cons sub rest ih =>
    have hf := listIter_next_fst sub
    have hs := listIter_next_snd sub
    unfold nextIters
    cases h : sub.next with
    | mk o sub2 =>
      rw [h] at hf hs
      cases o with
      | some r =>
        simp only [remainingAll, List.map_cons, List.flatten_cons]
        cases hr : sub.remaining with
        | nil => rw [hr] at hf; simp at hf
        | cons a t =>
          rw [hr] at hf hs
          simp at hf
          simp only [List.tail_cons] at hs
          subst hf
          simp [hs, remainingAll]
      | none =>
        have hrem : sub.remaining = [] := by
          cases hr : sub.remaining with
          | nil => rfl
          | cons a t => rw [hr] at hf; simp at hf
        rw [hrem] at hs
        simp only [List.tail_nil] at hs
        simp only [remainingAll, List.map_cons, List.flatten_cons, hrem, hs,
          List.nil_append, List.tail_nil]
        simpa [remainingAll] using ih

theorem iterIter_next_fst (it : IteratorIterator) :
    (it.next).1 = it.remaining.head? := by
  simpa [IteratorIterator.next, IteratorIterator.remaining, remainingAll]
    using nextIters_fst it.iterators

theorem iterIter_next_snd (it : IteratorIterator) :
    (it.next).2.remaining = it.remaining.tail := by
  simpa [IteratorIterator.next, IteratorIterator.remaining, remainingAll]
    using nextIters_snd it.iterators

theorem collectIter_spec (fuel : Nat) :
    ∀ it : IteratorIterator, it.remaining.length ≤ fuel →
      collectIter fuel it = it.remaining := by
  induction fuel with
  | zero =>
    intro it h
    have : it.remaining = [] := List.length_eq_zero.mp (Nat.le_zero.mp h)
    simp [collectIter, this]
  | succ fuel ih =>
    intro it h
    have hf := iterIter_next_fst it
    have hs := iterIter_next_snd it
    unfold collectIter
    cases hn : it.next with
    | mk o it2 =>
      rw [hn] at hf hs
      cases o with
      | none =>
        have : it.remaining = [] := by
          cases hr : it.remaining with
          | nil => rfl
          | cons a t => rw [hr] at hf; simp at hf
        simp [this]
      | some r =>
        cases hr : it.remaining with
        | nil => rw [hr] at hf; simp at hf
        | cons a t =>
          rw [hr] at hf hs
          simp at hf
          simp only [List.tail_cons] at hs
          subst hf
          have hlen : it2.remaining.length ≤ fuel := by
            rw [hs]
            have := h
            rw [hr] at this
            simpa using Nat.le_of_succ_le_succ this
          simp [ih it2 hlen, hs]

/-! ### Graph element model

Modelled from the spec and docs: nodes carry labels, a property map, the
primary (merge) attribute data and a merge flag; relationships connect
two nodes under a type string.  The neo4j integration module holding the
concrete classes is not under src/. -/

/-- A graph node as produced by the conversion. -/
structure Node where
  labels : List String
  properties : List (String × Value)
  primary_label : Option String
  primary_key : Option String
  primary_value : Option Value
  merge : Bool
deriving DecidableEq, Repr

/-- A graph relationship as produced by the conversion.  `mergeAll` is
the flag set by the MERGE_RELATION wrapper: such a relationship is
deduplicated on (start, end, type) even without a primary attribute. -/
structure Relationship where
  startN : Node
  endN : Node
  rtype : String
  properties : List (String × Value)
  primary_key : Option String
  primary_value : Option Value
  merge : Bool
  mergeAll : Bool
deriving DecidableEq, Repr

/-- A subgraph: a collection of nodes and relationships. -/
structure Subgraph where
  nodes : List Node
  rels : List Relationship
deriving DecidableEq, Repr

/-! ### Factory graph

Modelled from the spec (section 4.3) and docs/documentation.md (Building
your own Wrappers): each factory exposes `construct(resource)`; a null
resource short-circuits to a null product; attribute preprocessors may
return null to skip the enclosing subgraph; user wrapper bodies may fail
(ResourceAccessError), modelled with `Except String`.  The factory
implementation files are not under src/. -/

/-- A pre-processor body: user code mapping a resource to a resource,
null (skip) or an error. -/
def PreProc : Type := Resource → Except String (Option Resource)

/-- An attribute factory: a literal, an entity-attribute read, or a
wrapped factory with an attribute pre- or post-processor. -/
inductive AttrFactory where
  | lit : String → Value → AttrFactory
  | entityAttr : String → String → AttrFactory
  | preWrap : PreProc → AttrFactory → AttrFactory
  | postWrap : (Attribute → Except String Attribute) → AttrFactory → AttrFactory

/-- Construction for attribute factories.  A null resource produces a
null product; a pre-processor returning null makes the wrapped factory
produce null. -/
def AttrFactory.construct : AttrFactory → Option Resource → Except String (Option Attribute)
  | _, none => Except.ok none
  | .lit k v, some _ => Except.ok (some ⟨k, v⟩)
  | .entityAttr k field, some r => Except.ok (some ⟨k, r.get field⟩)
  | .preWrap p f, some r => do
    let r2 ← p r
    f.construct r2
  | .postWrap p f, some r => do
    let a? ← f.construct (some r)
    match a? with
    | none => pure none
    | some a => do
      let b ← p a
      pure (some b)

/-- Construct a whole list of attribute factories against one resource.
If any factory produces a null attribute, the whole list produces null
(the enclosing subgraph factory is skipped); an error propagates. -/
def buildAttrs : List AttrFactory → Option Resource → Except String (Option (List Attribute))
  | [], _ => Except.ok (some [])
  | f :: rest, r => do
    let a? ← f.construct r
    match a? with
    | none => pure none
    | some a => do
      let others? ← buildAttrs rest r
      match others? with
      | none => pure none
      | some l => pure (some (a :: l))

/-- A node factory compiled from a `NODE(...)` block: label expressions,
attribute factories, the index of the primary attribute when one is
declared with `+`, and the optional local identifier. -/
structure NodeFactory where
  labels : List AttrFactory
  attrs : List AttrFactory
  primary : Option Nat
  identifier : Option String

/-- Assemble the node from its computed label strings and attributes,
given the primary attribute when present and non-null.  With no usable
primary attribute the node is created unconditionally (merge = false). -/
def mkNode (labelStrs : List String) (attrs : List Attribute) :
    Option Attribute → Node
  | none =>
    { labels := labelStrs
      properties := attrs.map (fun a => (a.key, a.value))
      primary_label := none
      primary_key := none
      primary_value := none
      merge := false }
  | some pa =>
    { labels := labelStrs
      properties := attrs.map (fun a => (a.key, a.value))
      primary_label := labelStrs.head?
      primary_key := some pa.key
      primary_value := some pa.value
      merge := true }

/-- Construction for node factories.  Returns the produced node (or none
when the factory is skipped) together with the logged warnings.  When
the declared primary attribute computes to null, the node is emitted as
if merge had not been requested and a warning is logged. -/
def NodeFactory.construct (nf : NodeFactory) :
    Option Resource → Except String (Option Node × List String)
  | none => Except.ok (none, [])
  | some r => do
    let lvs? ← buildAttrs nf.labels (some r)
    match lvs? with
    | none => pure (none, [])
    | some lvs => do
      let attrs? ← buildAttrs nf.attrs (some r)
      match attrs? with
      | none => pure (none, [])
      | some attrs =>
        let labelStrs := lvs.map (fun a => a.value.render)
        match nf.primary.bind (fun i => attrs.get? i) with
        | none => pure (some (mkNode labelStrs attrs none), [])
        | some pa =>
          if pa.value = Value.vNull then
            pure (some (mkNode labelStrs attrs none),
              ["primary attribute is null: node created without merge"])
          else
            pure (some (mkNode labelStrs attrs (some pa)), [])

/-- Predicate for MATCH resolution: an existing node matches a pattern
iff it carries every requested label and satisfies every
(property = value) condition. -/
def nodeMatches (labels : List String) (conds : List (String × Value)) (n : Node) : Bool :=
  labels.all (fun l => n.labels.contains l) &&
  conds.all (fun c => n.properties.lookup c.1 == some c.2)

/-- A relationship endpoint: a local node identifier declared above in
the same entity, or a MATCH pattern (label expressions plus condition
expressions) querying the existing graph. -/
inductive Endpoint where
  | ident : String → Endpoint
  | matchNodes : List AttrFactory → List AttrFactory → Endpoint

/-- Resolve an endpoint against the existing graph and the per-resource
identifier map.  A missing identifier resolves to the empty node set
(the relationship is then silently skipped); a MATCH filters the graph;
a pre-processor returning null inside a MATCH expression yields none
(skip). -/
def resolveEndpoint (g : List Node) (idMap : List (String × Node)) (r : Resource) :
    Endpoint → Except String (Option (List Node))
  | .ident s =>
    match idMap.lookup s with
    | some n => Except.ok (some [n])
    | none => Except.ok (some [])
  | .matchNodes lfs cfs => do
    let lvs? ← buildAttrs lfs (some r)
    match lvs? with
    | none => pure none
    | some lvs => do
      let cvs? ← buildAttrs cfs (some r)
      match cvs? with
      | none => pure none
      | some cvs =>
        pure (some (g.filter (nodeMatches (lvs.map (fun a => a.value.render))
          (cvs.map (fun a => (a.key, a.value))))))

/-- A relationship factory compiled from a `RELATIONSHIP(...)` (alias
`RELATION(...)`) block: two endpoints, a type expression, attribute
factories and the optional primary attribute index. -/
structure RelFactory where
  source : Endpoint
  target : Endpoint
  relType : AttrFactory
  attrs : List AttrFactory
  primary : Option Nat

/-- Assemble one relationship from resolved endpoint nodes, the rendered
type string, the property list and the optional primary attribute. -/
def mkRel (s t : Node) (ty : String) (props : List (String × Value))
    (pa? : Option Attribute) : Relationship :=
  { startN := s, endN := t, rtype := ty, properties := props,
    primary_key := pa?.map (fun a => a.key),
    primary_value := pa?.map (fun a => a.value),
    merge := pa?.isSome, mergeAll := false }

/-- One relationship per element of the cartesian product of the two
resolved endpoint node sets. -/
def mkRels (srcs tgts : List Node) (ty : String) (props : List (String × Value))
    (pa? : Option Attribute) : List Relationship :=
  (srcs.map (fun s => tgts.map (fun t => mkRel s t ty props pa?))).flatten

/-- Construction for relationship factories: one relationship per
element of the cartesian product of the resolved endpoints.  An empty or
skipped endpoint short-circuits to zero relationships without error. -/
def RelFactory.construct (rf : RelFactory) (g : List Node) (idMap : List (String × Node)) :
    Option Resource → Except String (List Relationship)
  | none => Except.ok []
  | some r => do
    let srcs? ← resolveEndpoint g idMap r rf.source
    match srcs? with
    | none => pure []
    | some [] => pure []
    | some srcs => do
      let tgts? ← resolveEndpoint g idMap r rf.target
      match tgts? with
      | none => pure []
      | some [] => pure []
      | some tgts => do
        let t? ← rf.relType.construct (some r)
        match t? with
        | none => pure []
        | some tAttr => do
          let attrs? ← buildAttrs rf.attrs (some r)
          match attrs? with
          | none => pure []
          | some attrs =>
            pure (mkRels srcs tgts tAttr.value.render
              (attrs.map (fun a => (a.key, a.value)))
              (rf.primary.bind (fun i => attrs.get? i)))

/-- A subgraph factory: a node block, a relationship block, or a wrapped
factory with a subgraph pre- or post-processor, or the provided
MERGE_RELATION (alias MERGE_RELATIONSHIPS) wrapper. -/
inductive SgFactory where
  | nodeF : NodeFactory → SgFactory
  | relF : RelFactory → SgFactory
  | preWrap : PreProc → SgFactory → SgFactory
  | postWrap : (Subgraph → Except String Subgraph) → SgFactory → SgFactory
  | mergeRelWrap : SgFactory → SgFactory

/-- Construction for subgraph factories against the existing graph and
the per-resource identifier map.  A null resource short-circuits to a
null product; the MERGE_RELATION wrapper marks every produced
relationship for deduplication on (start, end, type). -/
def SgFactory.construct (g : List Node) (idMap : List (String × Node)) :
    SgFactory → Option Resource → Except String (Option Subgraph × List String)
  | _, none => Except.ok (none, [])
  | .nodeF nf, some r => do
    let res ← nf.construct (some r)
    pure (res.1.map (fun n => { nodes := [n], rels := [] }), res.2)
  | .relF rf, some r => do
    let rels ← rf.construct g idMap (some r)
    pure (some { nodes := [], rels := rels }, [])
  | .preWrap p f, some r => do
    let r2 ← p r
    f.construct g idMap r2
  | .postWrap p f, some r => do
    let res ← f.construct g idMap (some r)
    match res.1 with
    | none => pure (none, res.2)
    | some sg => do
      let sg2 ← p sg
      pure (some sg2, res.2)
  | .mergeRelWrap f, some r => do
    let res ← f.construct g idMap (some r)
    pure (res.1.map (fun sg =>
      { sg with rels := sg.rels.map (fun rel => { rel with mergeAll := true }) }), res.2)

theorem sum_map_const {α : Type} (l : List α) (n : Nat) :
    (l.map (fun _ => n)).sum = l.length * n := by
  induction l with
  | nil => simp
  | cons a t ih => simp [ih, Nat.succ_mul, Nat.add_comm]

theorem exceptBind_ok {e a b : Type} (x : a) (f : a → Except e b) :
    (Except.ok x : Except e a) >>= f = f x := rfl

theorem exceptPure_eq {e a : Type} (x : a) :
    (pure x : Except e a) = Except.ok x := rfl

theorem mkRels_length (srcs tgts : List Node) (ty : String)
    (props : List (String × Value)) (pa? : Option Attribute) :
    (mkRels srcs tgts ty props pa?).length = srcs.length * tgts.length := by
  unfold mkRels
  rw [List.length_flatten, List.map_map]
  have h : (List.length ∘ fun s => tgts.map (fun t => mkRel s t ty props pa?))
      = fun _ => tgts.length := by
    funext s
    simp
  rw [h, sum_map_const]

/-- C4: For every relationship sub-plan whose two endpoints resolve to m
source nodes and n destination nodes, construction produces exactly m*n
relationship instances; in particular a MATCH endpoint resolving to zero
existing nodes yields zero relationships and raises no error. -/
theorem relFactory_cartesian (rf : RelFactory) (g : List Node)
    (idMap : List (String × Node)) (r : Resource)
    (srcs tgts : List Node) (tAttr : Attribute) (attrs : List Attribute)
    (hs : resolveEndpoint g idMap r rf.source = Except.ok (some srcs))
    (ht : resolveEndpoint g idMap r rf.target = Except.ok (some tgts))
    (hty : rf.relType.construct (some r) = Except.ok (some tAttr))
    (ha : buildAttrs rf.attrs (some r) = Except.ok (some attrs)) :
    ∃ rels, rf.construct g idMap (some r) = Except.ok rels ∧
      rels.length = srcs.length * tgts.length := by
  cases srcs with
  | nil =>
    refine ⟨[], ?_, by simp⟩
    simp [RelFactory.construct, hs, exceptBind_ok, exceptPure_eq]
  | cons s0 srest =>
    cases tgts with
    | nil =>
      refine ⟨[], ?_, by simp⟩
      simp [RelFactory.construct, hs, ht, exceptBind_ok, exceptPure_eq]
    | cons t0 trest =>
      refine ⟨mkRels (s0 :: srest) (t0 :: trest) tAttr.value.render
        (attrs.map (fun a => (a.key, a.value)))
        (rf.primary.bind (fun i => attrs.get? i)), ?_, ?_⟩
      · simp only [RelFactory.construct, hs, ht, hty, ha, exceptBind_ok, exceptPure_eq]
      · rw [mkRels_length]

theorem exceptBind_err {e a b : Type} (x : e) (f : a → Except e b) :
    (Except.error x : Except e a) >>= f = Except.error x := rfl

theorem buildAttrs_construct_none (post : List AttrFactory) (f : AttrFactory)
    (r : Option Resource) :
    ∀ (pre : List AttrFactory) (l : List Attribute),
      buildAttrs pre r = Except.ok (some l) →
      f.construct r = Except.ok none →
      buildAttrs (pre ++ f :: post) r = Except.ok none := by
  intro pre
  induction pre with
  | nil =>
    intro l hpre hf
    simp only [List.nil_append, buildAttrs, hf, exceptBind_ok, exceptPure_eq]
  | cons a t ih =>
    intro l hpre hf
    cases hca : a.construct r with
    | error e =>
      simp only [buildAttrs, hca, exceptBind_err] at hpre
      exact absurd hpre (by simp)
    | ok a? =>
      cases a? with
      | none =>
        simp only [buildAttrs, hca, exceptBind_ok, exceptPure_eq] at hpre
        exact absurd hpre (by simp)
      | some a0 =>
        simp only [buildAttrs, hca, exceptBind_ok] at hpre
        cases hbt : buildAttrs t r with
        | error e =>
          simp only [hbt, exceptBind_err] at hpre
          exact absurd hpre (by simp)
        | ok o =>
          cases o with
          | none =>
            simp only [hbt, exceptBind_ok, exceptPure_eq] at hpre
            exact absurd hpre (by simp)
          | some l2 =>
            have hrest := ih l2 hbt hf
            simp only [List.cons_append, buildAttrs, hca, exceptBind_ok]
            rw [List.append_eq, hrest, exceptBind_ok]
            rfl

/-- C5: passing a null resource to any factory's construct yields a null
product, and an attribute pre-processor returning null makes the
enclosing subgraph (node) factory produce nothing. -/
theorem construct_null_short_circuit (g : List Node) (idMap : List (String × Node)) :
    (∀ af : AttrFactory, af.construct none = Except.ok none)
    ∧ (∀ nf : NodeFactory, nf.construct none = Except.ok (none, []))
    ∧ (∀ rf : RelFactory, rf.construct g idMap none = Except.ok [])
    ∧ (∀ sf : SgFactory, sf.construct g idMap none = Except.ok (none, []))
    ∧ (∀ (nf : NodeFactory) (r : Resource) (p : PreProc) (af : AttrFactory)
        (pre post : List AttrFactory) (lv l : List Attribute),
        nf.attrs = pre ++ AttrFactory.preWrap p af :: post →
        p r = Except.ok none →
        buildAttrs nf.labels (some r) = Except.ok (some lv) →
        buildAttrs pre (some r) = Except.ok (some l) →
        nf.construct (some r) = Except.ok (none, [])) := by
  refine ⟨?_, ?_, ?_, ?_, ?_⟩
  · intro af
    cases af <;> rfl
  · intro nf
    rfl
  · intro rf
    rfl
  · intro sf
    cases sf <;> rfl
  · intro nf r p af pre post lv l hattrs hp hlv hpre
    have hnullaf : af.construct none = Except.ok none := by
      cases af <;> rfl
    have haf : (AttrFactory.preWrap p af).construct (some r) = Except.ok none := by
      simp only [AttrFactory.construct, hp, exceptBind_ok, hnullaf]
    have hall : buildAttrs nf.attrs (some r) = Except.ok none := by
      rw [hattrs]
      exact buildAttrs_construct_none post (AttrFactory.preWrap p af) (some r) pre l hpre haf
    simp only [NodeFactory.construct, hlv, hall, exceptBind_ok, exceptPure_eq]

/-- C6: when the declared primary attribute computes to null at
construct time, the node is still emitted but created unconditionally
(as if merge had not been requested), a warning is logged, and no error
is raised. -/
theorem nodeFactory_null_primary (nf : NodeFactory) (r : Resource)
    (i : Nat) (lvs attrs : List Attribute) (pa : Attribute)
    (hp : nf.primary = some i)
    (hl : buildAttrs nf.labels (some r) = Except.ok (some lvs))
    (ha : buildAttrs nf.attrs (some r) = Except.ok (some attrs))
    (hi : attrs[i]? = some pa)
    (hv : pa.value = Value.vNull) :
    ∃ n ws, nf.construct (some r) = Except.ok (some n, ws) ∧
      n.merge = false ∧ ws ≠ [] := by
  refine ⟨mkNode (lvs.map (fun a => a.value.render)) attrs none,
    ["primary attribute is null: node created without merge"], ?_, rfl, by simp⟩
  simp [NodeFactory.construct, hl, ha, hp, hi, hv, exceptBind_ok, exceptPure_eq]

/-- C7: a relationship sub-plan referring to a local node identifier for
which no node was produced for the current resource is silently skipped:
it yields zero relationships and never raises an error. -/
theorem relFactory_missing_identifier (rf : RelFactory) (g : List Node)
    (idMap : List (String × Node)) (r : Resource) (s : String)
    (hmiss : idMap.lookup s = none) :
    (rf.source = Endpoint.ident s →
      rf.construct g idMap (some r) = Except.ok [])
    ∧ (∀ srcs : List Node, rf.target = Endpoint.ident s →
      resolveEndpoint g idMap r rf.source = Except.ok (some srcs) →
      rf.construct g idMap (some r) = Except.ok []) := by
  constructor
  · intro hsrc
    have hres : resolveEndpoint g idMap r rf.source = Except.ok (some []) := by
      rw [hsrc]
      simp only [resolveEndpoint, hmiss]
    simp only [RelFactory.construct, hres, exceptBind_ok, exceptPure_eq]
  · intro srcs htgt hsrcres
    cases srcs with
    | nil => simp only [RelFactory.construct, hsrcres, exceptBind_ok, exceptPure_eq]
    | cons s0 srest =>
      have hres : resolveEndpoint g idMap r rf.target = Except.ok (some []) := by
        rw [htgt]
        simp only [resolveEndpoint, hmiss]
      simp only [RelFactory.construct, hsrcres, hres, exceptBind_ok, exceptPure_eq]

/-! ### Graph writer

Modelled from the spec (section 4.4 and 4.5) and the Merging Nodes
sections of docs/schema_syntax.md and
docs/build/html/_sources/conversion_schema.rst.txt: a node with a primary
attribute is created only when no node with the same primary label and
primary attribute exists; otherwise the existing node is updated (new
keys added, overlapping keys overwritten).  The MERGE_RELATION wrapper
(docs/source/py2neo_extensions.rst) deduplicates relationships without a
primary key on (start, end, type).  The writer implementation is not
under src/. -/

/-- Merge identity of a node: its (primary label, primary key name,
primary key value) triple when it is a merge target, none otherwise. -/
def Node.mergeId (n : Node) : Option (String × String × Value) :=
  if n.merge then
    match n.primary_label, n.primary_key, n.primary_value with
    | some l, some k, some v => some (l, k, v)
    | _, _, _ => none
  else none

/-- Additive property-map update: keys of the newer map win, keys only
in the older map are kept. -/
def updateProps (old new : List (String × Value)) : List (String × Value) :=
  new ++ old.filter (fun kv => !(new.any (fun kv2 => kv2.1 == kv.1)))

/-- Commit one node to the graph's node set: a merge-target node with an
already-present merge identity updates that node's property map instead
of creating a second node; anything else is appended (created). -/
def commitNode (g : List Node) (n : Node) : List Node :=
  match n.mergeId with
  | none => g ++ [n]
  | some id =>
    if g.any (fun m => m.mergeId == some id) then
      g.map (fun m => if m.mergeId == some id then
        { m with properties := updateProps m.properties n.properties } else m)
    else g ++ [n]

/-- Number of nodes in the graph carrying a given merge identity. -/
def countId (g : List Node) (id : String × String × Value) : Nat :=
  (g.filter (fun m => m.mergeId == some id)).length

/-- Two relationships are the same edge when they share start node, end
node and type. -/
def sameEdge (a b : Relationship) : Bool :=
  a.startN == b.startN && a.endN == b.endN && a.rtype == b.rtype

/-- Commit one relationship to the graph's relationship set: a
MERGE_RELATION-marked relationship is dropped when the same edge already
exists; a relationship with a primary attribute merges on edge plus
primary attribute; any other relationship is created as a new (possibly
parallel) edge. -/
def commitRel (g : List Relationship) (r : Relationship) : List Relationship :=
  if r.mergeAll then
    if g.any (fun x => sameEdge x r) then g else g ++ [r]
  else if r.merge then
    if g.any (fun x => sameEdge x r && x.primary_key == r.primary_key &&
        x.primary_value == r.primary_value) then
      g.map (fun x => if sameEdge x r && x.primary_key == r.primary_key &&
          x.primary_value == r.primary_value then
        { x with properties := updateProps x.properties r.properties } else x)
    else g ++ [r]
  else g ++ [r]

/-- Number of relationships in the graph forming the same edge as `r`. -/
def countEdge (g : List Relationship) (r : Relationship) : Nat :=
  (g.filter (fun x => sameEdge x r)).length

theorem mergeId_set_properties (m : Node) (p : List (String × Value)) :
    ({ m with properties := p } : Node).mergeId = m.mergeId := rfl

theorem countId_append_one (g : List Node) (n : Node) (id : String × String × Value) :
    countId (g ++ [n]) id =
      countId g id + (if n.mergeId == some id then 1 else 0) := by
  simp only [countId, List.filter_append, List.length_append]
  cases h : (n.mergeId == some id) with
  | true => simp [List.filter, h]
  | false => simp [List.filter, h]

theorem countId_map_preserve (g : List Node) (f : Node → Node)
    (hf : ∀ m, (f m).mergeId = m.mergeId) (id : String × String × Value) :
    countId (g.map f) id = countId g id := by
  induction g with
  | nil => rfl
  | cons a t ih =>
    simp only [countId, List.map_cons, List.filter] at *
    rw [hf a]
    cases h : (a.mergeId == some id) with
    | true => simp [ih]
    | false => simp [ih]

theorem countId_zero_of_any_false (g : List Node) (id : String × String × Value)
    (h : g.any (fun m => m.mergeId == some id) = false) : countId g id = 0 := by
  simp only [countId, List.length_eq_zero]
  rw [List.filter_eq_nil_iff]
  intro m hm
  have := List.any_eq_false.mp h m hm
  simpa using this

theorem commitNode_countId_le (g : List Node) (n : Node)
    (id : String × String × Value) (h : countId g id ≤ 1) :
    countId (commitNode g n) id ≤ 1 := by
  unfold commitNode
  cases hm : n.mergeId with
  | none =>
    rw [countId_append_one]
    have : (n.mergeId == some id) = false := by simp [hm]
    rw [this]
    simpa using h
  | some id0 =>
    cases hex : g.any (fun m => m.mergeId == some id0) with
    | true =>
      simp only [hex, if_true]
      rw [countId_map_preserve]
      · exact h
      · intro m
        cases hc : (m.mergeId == some id0) with
        | true => simp [hc, mergeId_set_properties]
        | false => simp [hc]
    | false =>
      simp only [hex, Bool.false_eq_true, if_false]
      rw [countId_append_one]
      by_cases hid : id = id0
      · subst hid
        have h0 : countId g id = 0 := countId_zero_of_any_false g id hex
        rw [h0]
        cases hc : (n.mergeId == some id) <;> simp
      · have : (n.mergeId == some id) = false := by
          simp [hm]
          intro hcon
          exact absurd hcon.symm hid
        rw [this]
        simpa using h

theorem lookup_append_pairs (new rest : List (String × Value)) (k : String) :
    List.lookup k (new ++ rest) =
      match List.lookup k new with
      | some v => some v
      | none => List.lookup k rest := by
  induction new with
  | nil => simp [List.lookup]
  | cons kv t ih =>
    simp only [List.cons_append, List.lookup]
    cases h : (k == kv.1) with
    | true => simp
    | false => simpa using ih

theorem lookup_filter_keep (old : List (String × Value)) (p : String × Value → Bool)
    (k : String) (hk : ∀ kv ∈ old, kv.1 = k → p kv = true) :
    List.lookup k (old.filter p) = List.lookup k old := by
  induction old with
  | nil => rfl
  | cons kv t ih =>
    have iht : List.lookup k (t.filter p) = List.lookup k t := by
      apply ih
      intro x hx hxk
      exact hk x (List.mem_cons_of_mem kv hx) hxk
    cases hkk : (k == kv.1) with
    | true =>
      have hkv : kv.1 = k := (eq_of_beq hkk).symm
      have hp : p kv = true := hk kv (List.mem_cons_self kv t) hkv
      simp [List.filter, hp, List.lookup, hkk]
    | false =>
      cases hp : p kv with
      | true => simp [List.filter, hp, List.lookup, hkk, iht]
      | false => simp [List.filter, hp, iht, List.lookup, hkk]

theorem lookup_mem_key (l : List (String × Value)) (k : String)
    (h : ∃ x ∈ l, x.1 = k) : ∃ v, List.lookup k l = some v := by
  induction l with
  | nil =>
    obtain ⟨x, hx, _⟩ := h
    exact absurd hx (List.not_mem_nil x)
  | cons y t ih =>
    cases hkk : (k == y.1) with
    | true => exact ⟨y.2, by simp [List.lookup, hkk]⟩
    | false =>
      obtain ⟨x, hx, hx1⟩ := h
      rcases List.mem_cons.mp hx with hxy | hxt
      · subst hxy
        simp [hx1] at hkk
      · obtain ⟨v, hv⟩ := ih ⟨x, hxt, hx1⟩
        exact ⟨v, by simp [List.lookup, hkk, hv]⟩

theorem lookup_updateProps (old new : List (String × Value)) (k : String) :
    List.lookup k (updateProps old new) =
      match List.lookup k new with
      | some v => some v
      | none => List.lookup k old := by
  unfold updateProps
  rw [lookup_append_pairs]
  cases hn : List.lookup k new with
  | some v => simp
  | none =>
    simp only
    apply lookup_filter_keep
    intro kv hkv hk1
    subst hk1
    simp only [Bool.not_eq_eq_eq_not, Bool.not_true, List.any_eq_false]
    intro x hx
    intro hbeq
    have hx1 : x.1 = kv.1 := by simpa using hbeq
    obtain ⟨v, hv⟩ := lookup_mem_key new kv.1 ⟨x, hx, hx1⟩
    rw [hn] at hv
    cases hv

theorem foldl_commitNode_le (ns : List Node) :
    ∀ g0 : List Node, (∀ id, countId g0 id ≤ 1) →
      ∀ id, countId (ns.foldl commitNode g0) id ≤ 1 := by
  induction ns with
  | nil =>
    intro g0 h0 id
    simpa using h0 id
  | cons n t ih =>
    intro g0 h0 id
    simp only [List.foldl_cons]
    exact ih (commitNode g0 n) (fun id2 => commitNode_countId_le g0 n id2 (h0 id2)) id

/-- C1: starting from a graph in which every merge identity occurs at
most once, committing any sequence of nodes keeps every
(primary label, primary key, primary value) identity unique; committing
a node whose merge identity is already present updates the existing
node's property map (length unchanged, new keys added and overlapping
keys overwritten with the later writer winning) instead of creating a
second node. -/
theorem mergeNode_at_most_one (g0 : List Node) (ns : List Node)
    (h0 : ∀ id, countId g0 id ≤ 1) :
    (∀ id, countId (ns.foldl commitNode g0) id ≤ 1)
    ∧ (∀ (g : List Node) (n : Node) (id : String × String × Value),
        n.mergeId = some id →
        g.any (fun m => m.mergeId == some id) = true →
        (commitNode g n).length = g.length ∧
        (∀ m ∈ g, m.mergeId = some id →
          ({ m with properties := updateProps m.properties n.properties } : Node)
            ∈ commitNode g n))
    ∧ (∀ (old new : List (String × Value)) (k : String),
        List.lookup k (updateProps old new) =
          match List.lookup k new with
          | some v => some v
          | none => List.lookup k old) := by
  refine ⟨foldl_commitNode_le ns g0 h0, ?_, ?_⟩
  · intro g n id hm hex
    constructor
    · simp only [commitNode, hm, hex, if_true, List.length_map]
    · intro m hmem hmid
      simp only [commitNode, hm, hex, if_true]
      have heq : (fun m => if m.mergeId == some id then
          ({ m with properties := updateProps m.properties n.properties } : Node) else m) m
          = ({ m with properties := updateProps m.properties n.properties } : Node) := by
        simp [hmid]
      rw [← heq]
      exact List.mem_map_of_mem _ hmem
  · intro old new k
    exact lookup_updateProps old new k

theorem sameEdge_congr (x r : Relationship) (h : sameEdge x r = true) :
    ∀ y, sameEdge y x = sameEdge y r := by
  have hx : x.startN = r.startN ∧ x.endN = r.endN ∧ x.rtype = r.rtype := by
    simpa [sameEdge, Bool.and_eq_true, beq_iff_eq, and_assoc] using h
  intro y
  simp [sameEdge, hx.1, hx.2.1, hx.2.2]

theorem countEdge_append_one (g : List Relationship) (x r : Relationship) :
    countEdge (g ++ [x]) r =
      countEdge g r + (if sameEdge x r then 1 else 0) := by
  simp only [countEdge, List.filter_append, List.length_append]
  cases h : sameEdge x r with
  | true => simp [List.filter, h]
  | false => simp [List.filter, h]

theorem countEdge_zero_iff (g : List Relationship) (r : Relationship) :
    countEdge g r = 0 ↔ g.any (fun x => sameEdge x r) = false := by
  simp [countEdge, List.length_eq_zero, List.filter_eq_nil_iff, List.any_eq_false]

theorem commitRel_mergeAll_stable (x r : Relationship)
    (hx : x.mergeAll = true) (hse : sameEdge x r = true) :
    ∀ g : List Relationship, countEdge g r = 1 → commitRel g x = g := by
  intro g hg
  have hany : g.any (fun y => sameEdge y x) = true := by
    have h1 : (fun y => sameEdge y x) = (fun y => sameEdge y r) := by
      funext y
      exact sameEdge_congr x r hse y
    rw [h1]
    cases hc : g.any (fun y => sameEdge y r) with
    | true => rfl
    | false =>
      rw [← countEdge_zero_iff] at hc
      omega
  simp [commitRel, hx, hany]

theorem foldl_commitRel_stable (rs : List Relationship) (r : Relationship)
    (hall : ∀ x ∈ rs, x.mergeAll = true ∧ sameEdge x r = true) :
    ∀ g : List Relationship, countEdge g r = 1 →
      countEdge (rs.foldl commitRel g) r = 1 := by
  induction rs with
  | nil =>
    intro g hg
    simpa using hg
  | cons x t ih =>
    intro g hg
    obtain ⟨hx, hse⟩ := hall x (List.mem_cons_self x t)
    simp only [List.foldl_cons, commitRel_mergeAll_stable x r hx hse g hg]
    exact ih (fun y hy => hall y (List.mem_cons_of_mem x hy)) g hg

/-- C10: the MERGE_RELATION wrapper marks every relationship it
produces for deduplication, and committing any non-empty collection of
otherwise-identical marked relationships (same start node, same end
node, same type, no primary attribute needed) into a graph not yet
containing that edge leaves exactly one such edge in the graph. -/
theorem mergeRelation_dedup (g0 : List Node) (idMap : List (String × Node)) :
    (∀ (f : SgFactory) (r : Resource) (sg : Subgraph) (ws : List String),
      SgFactory.construct g0 idMap (SgFactory.mergeRelWrap f) (some r)
        = Except.ok (some sg, ws) →
      ∀ rel ∈ sg.rels, rel.mergeAll = true)
    ∧ (∀ (g : List Relationship) (rs : List Relationship) (r : Relationship),
      (∀ x ∈ rs, x.mergeAll = true ∧ sameEdge x r = true) →
      rs ≠ [] → countEdge g r = 0 →
      countEdge (rs.foldl commitRel g) r = 1) := by
  constructor
  · intro f r sg ws h
    cases hc : SgFactory.construct g0 idMap f (some r) with
    | error e =>
      rw [SgFactory.construct, hc, exceptBind_err] at h
      cases h
    | ok res =>
      rw [SgFactory.construct, hc, exceptBind_ok] at h
      cases hres : res.1 with
      | none =>
        rw [hres] at h
        simp [exceptPure_eq] at h
      | some sg2 =>
        rw [hres] at h
        simp only [Option.map_some', exceptPure_eq, Except.ok.injEq, Prod.mk.injEq,
          Option.some.injEq] at h
        obtain ⟨hsg, hws⟩ := h
        intro rel hrel
        rw [← hsg] at hrel
        obtain ⟨rel0, hrel0, hmark⟩ := List.mem_map.mp hrel
        rw [← hmark]
  · intro g rs r hall hne h0
    cases rs with
    | nil => exact absurd rfl hne
    | cons x t =>
      obtain ⟨hx, hse⟩ := hall x (List.mem_cons_self x t)
      have hanyx : g.any (fun y => sameEdge y x) = false := by
        have h1 : (fun y => sameEdge y x) = (fun y => sameEdge y r) := by
          funext y
          exact sameEdge_congr x r hse y
        rw [h1, ← countEdge_zero_iff]
        exact h0
      have hstep : commitRel g x = g ++ [x] := by
        simp [commitRel, hx, hanyx]
      have h1 : countEdge (g ++ [x]) r = 1 := by
        rw [countEdge_append_one, h0, hse]
        simp
      simp only [List.foldl_cons, hstep]
      exact foldl_commitRel_stable t r
        (fun y hy => hall y (List.mem_cons_of_mem x hy)) (g ++ [x]) h1

/-! ### Execution engine

Modelled from the spec (section 4.6), docs/source/converter.rst and
docs/documentation.md: the Converter iterates twice over the resource
iterator (first all nodes, then all relationships, with the iterator
reset in between), and keeps a checkpoint so that a re-invocation after
a failure continues where it left off; the checkpoint is reset when the
converter is initialised or its iterator is replaced, while
reload_config only replaces the conversion schema.  The converter
implementation file is not under src/. -/

/-- Observable engine events: reading a resource from the iterator,
resetting the iterator, committing a group of nodes, committing a group
of relationships. -/
inductive Event where
  | readR : Resource → Event
  | resetIt : Event
  | commitN : List Node → Event
  | commitR : List Relationship → Event
deriving DecidableEq, Repr

/-- Phase N: for each resource in iterator order, read it and commit
only the nodes of its subgraph. -/
def nodePhaseEvents (plan : Resource → Subgraph) : List Resource → List Event
  | [] => []
  | r :: rest =>
    Event.readR r :: Event.commitN (plan r).nodes :: nodePhaseEvents plan rest

/-- Phase R: for each resource in iterator order, read it and commit
only the relationships of its subgraph. -/
def relPhaseEvents (plan : Resource → Subgraph) : List Resource → List Event
  | [] => []
  | r :: rest =>
    Event.readR r :: Event.commitR (plan r).rels :: relPhaseEvents plan rest

/-- One engine run: the nodes-only phase over the whole iterator, the
iterator reset, then the relationships-only phase over the whole
iterator. -/
def converterRun (plan : Resource → Subgraph) (rs : List Resource) : List Event :=
  nodePhaseEvents plan rs ++ Event.resetIt :: relPhaseEvents plan rs

/-- The resources read from the iterator along a trace. -/
def readsOf (es : List Event) : List Resource :=
  es.filterMap (fun e => match e with | .readR r => some r | _ => none)

/-- Whether an event commits nodes. -/
def isCommitN : Event → Bool
  | .commitN _ => true
  | _ => false

/-- Whether an event commits relationships. -/
def isCommitR : Event → Bool
  | .commitR _ => true
  | _ => false

theorem readsOf_nodePhase (plan : Resource → Subgraph) (rs : List Resource) :
    readsOf (nodePhaseEvents plan rs) = rs := by
  induction rs with
  | nil => rfl
  | cons r rest ih => simp [nodePhaseEvents, readsOf, List.filterMap_cons] at *; exact ih

theorem readsOf_relPhase (plan : Resource → Subgraph) (rs : List Resource) :
    readsOf (relPhaseEvents plan rs) = rs := by
  induction rs with
  | nil => rfl
  | cons r rest ih => simp [relPhaseEvents, readsOf, List.filterMap_cons] at *; exact ih

theorem nodePhase_no_commitR (plan : Resource → Subgraph) (rs : List Resource) :
    ∀ e ∈ nodePhaseEvents plan rs, isCommitR e = false := by
  induction rs with
  | nil => intro e he; cases he
  | cons r rest ih =>
    intro e he
    rcases List.mem_cons.mp he with h1 | he2
    · subst h1; rfl
    rcases List.mem_cons.mp he2 with h2 | he3
    · subst h2; rfl
    · exact ih e he3

theorem relPhase_no_commitN (plan : Resource → Subgraph) (rs : List Resource) :
    ∀ e ∈ relPhaseEvents plan rs, isCommitN e = false := by
  induction rs with
  | nil => intro e he; cases he
  | cons r rest ih =>
    intro e he
    rcases List.mem_cons.mp he with h1 | he2
    · subst h1; rfl
    rcases List.mem_cons.mp he2 with h2 | he3
    · subst h2; rfl
    · exact ih e he3

theorem nodePhase_no_reset (plan : Resource → Subgraph) (rs : List Resource) :
    Event.resetIt ∉ nodePhaseEvents plan rs := by
  induction rs with
  | nil => intro h; cases h
  | cons r rest ih =>
    intro h
    rcases List.mem_cons.mp h with h1 | h2
    · cases h1
    rcases List.mem_cons.mp h2 with h3 | h4
    · cases h3
    · exact ih h4

theorem relPhase_no_reset (plan : Resource → Subgraph) (rs : List Resource) :
    Event.resetIt ∉ relPhaseEvents plan rs := by
  induction rs with
  | nil => intro h; cases h
  | cons r rest ih =>
    intro h
    rcases List.mem_cons.mp h with h1 | h2
    · cases h1
    rcases List.mem_cons.mp h2 with h3 | h4
    · cases h3
    · exact ih h4

/-- C2: one engine run traverses the iterator exactly twice, a
nodes-only phase A then a relationships-only phase B, with the single
iterator reset in between: each phase reads the full resource sequence,
no relationship commit occurs in A, no node commit occurs in B, so
every node commit precedes every relationship commit. -/
theorem converter_two_phases (plan : Resource → Subgraph) (rs : List Resource) :
    ∃ A B : List Event,
      converterRun plan rs = A ++ Event.resetIt :: B
      ∧ readsOf A = rs ∧ readsOf B = rs
      ∧ (∀ e ∈ A, isCommitR e = false)
      ∧ (∀ e ∈ B, isCommitN e = false)
      ∧ Event.resetIt ∉ A ∧ Event.resetIt ∉ B := by
  exact ⟨nodePhaseEvents plan rs, relPhaseEvents plan rs, rfl,
    readsOf_nodePhase plan rs, readsOf_relPhase plan rs,
    nodePhase_no_commitR plan rs, relPhase_no_commitN plan rs,
    nodePhase_no_reset plan rs, relPhase_no_reset plan rs⟩

/-- Converter state: compiled schema text, the iterator's batches, and
the checkpoint of batch indices already committed. -/
structure Converter where
  schema : String
  batches : List (List Resource)
  committed : List Nat
deriving DecidableEq, Repr

/-- Construct a Converter: the checkpoint starts empty. -/
def initConverter (schema : String) (batches : List (List Resource)) : Converter :=
  ⟨schema, batches, []⟩

/-- Replace the underlying iterator: the checkpoint is reset. -/
def setIterator (c : Converter) (batches : List (List Resource)) : Converter :=
  { c with batches := batches, committed := [] }

/-- Reload the conversion schema (reload_config): only the schema is
replaced; the converter continues where it left off, so the checkpoint
is kept. -/
def reload_config (c : Converter) (schema : String) : Converter :=
  { c with schema := schema }

/-- One invocation pass over the batches starting at index `i`: a batch
whose index is checkpointed is skipped; reaching the injected failing
batch halts the run; every other batch is processed and committed.
Returns the indices committed during this run. -/
def runFrom (committed : List Nat) (failAt : Option Nat) :
    List (List Resource) → Nat → List Nat
  | [], _ => []
  | _ :: rest, i =>
    if i ∈ committed then runFrom committed failAt rest (i + 1)
    else if failAt = some i then []
    else i :: runFrom committed failAt rest (i + 1)

/-- Invoke the converter (optionally with an injected failure): the
newly committed batch indices are appended to the checkpoint. -/
def invoke (c : Converter) (failAt : Option Nat) : Converter × List Nat :=
  let done := runFrom c.committed failAt c.batches 0
  ({ c with committed := c.committed ++ done }, done)

theorem runFrom_not_committed (committed : List Nat) (failAt : Option Nat) :
    ∀ (batches : List (List Resource)) (i : Nat),
      ∀ j ∈ runFrom committed failAt batches i, j ∉ committed := by
  intro batches
  induction batches with
  | nil =>
    intro i j hj
    cases hj
  | cons b rest ih =>
    intro i j hj
    by_cases hc : i ∈ committed
    · rw [runFrom, if_pos hc] at hj
      exact ih (i + 1) j hj
    · rw [runFrom, if_neg hc] at hj
      by_cases hfail : failAt = some i
      · rw [if_pos hfail] at hj
        cases hj
      · rw [if_neg hfail] at hj
        rcases List.mem_cons.mp hj with h1 | h2
        · subst h1
          exact hc
        · exact ih (i + 1) j h2

theorem runFrom_complete (committed : List Nat) :
    ∀ (batches : List (List Resource)) (i j : Nat),
      i ≤ j → j < i + batches.length →
      j ∈ committed ∨ j ∈ runFrom committed none batches i := by
  intro batches
  induction batches with
  | nil =>
    intro i j hij hlt
    simp at hlt
    omega
  | cons b rest ih =>
    intro i j hij hlt
    by_cases hji : j = i
    · subst hji
      by_cases hc : j ∈ committed
      · exact Or.inl hc
      · right
        rw [runFrom, if_neg hc]
        simp only [reduceCtorEq, if_false]
        exact List.mem_cons_self j _
    · have hij2 : i + 1 ≤ j := by omega
      have hlt2 : j < (i + 1) + rest.length := by
        simp at hlt
        omega
      rcases ih (i + 1) j hij2 hlt2 with h | h
      · exact Or.inl h
      · right
        by_cases hc : i ∈ committed
        · rw [runFrom, if_pos hc]
          exact h
        · rw [runFrom, if_neg hc]
          simp only [reduceCtorEq, if_false]
          exact List.mem_cons_of_mem i h

/-- C3 (amended): after a failed run, re-invoking the converter with
the unchanged iterator commits no already-checkpointed batch, commits
every batch the failed run left uncommitted, and afterwards every batch
of the iterator is committed; replacing the iterator clears the
checkpoint, while reload_config keeps the checkpoint (the converter
continues where it left off with the new schema). -/
theorem checkpoint_resume (c : Converter) (k : Nat) (s2 : String)
    (b2 : List (List Resource)) :
    (∀ j ∈ (invoke ((invoke c (some k)).1) none).2,
        j ∉ ((invoke c (some k)).1).committed)
    ∧ (∀ j, j < c.batches.length →
        j ∉ ((invoke c (some k)).1).committed →
        j ∈ (invoke ((invoke c (some k)).1) none).2)
    ∧ (∀ j, j < c.batches.length →
        j ∈ ((invoke ((invoke c (some k)).1) none).1).committed)
    ∧ (setIterator c b2).committed = []
    ∧ (reload_config c s2).committed = c.committed := by
  refine ⟨?_, ?_, ?_, rfl, rfl⟩
  · intro j hj
    exact runFrom_not_committed _ none _ 0 j hj
  · intro j hlt hnc
    have := runFrom_complete ((invoke c (some k)).1).committed
      ((invoke c (some k)).1).batches 0 j (Nat.zero_le j) (by simpa using hlt)
    rcases this with h | h
    · exact absurd h hnc
    · exact h
  · intro j hlt
    have hm : (invoke ((invoke c (some k)).1) none).1.committed
        = ((invoke c (some k)).1).committed
          ++ (invoke ((invoke c (some k)).1) none).2 := rfl
    rw [hm, List.mem_append]
    have := runFrom_complete ((invoke c (some k)).1).committed
      ((invoke c (some k)).1).batches 0 j (Nat.zero_le j) (by simpa using hlt)
    rcases this with h | h
    · exact Or.inl h
    · exact Or.inr h

/-- C3 counterexample: reload_config does not clear the checkpoint.  A
converter whose checkpoint holds batch 0 keeps it after reload_config,
and the next invocation still skips batch 0 instead of starting from
the first resource. -/
theorem reload_config_keeps_checkpoint :
    (reload_config (Converter.mk "s" [[]] [0]) "t").committed = [0]
    ∧ (invoke (reload_config (Converter.mk "s" [[]] [0]) "t") none).2 = [] := by
  exact ⟨rfl, rfl⟩

/-- C8 counterexample: the engine's default batch size is 10000, not
5000 as claimed. -/
theorem defaultBatchSize_not_5000 : ¬ (defaultBatchSize = 5000) := by
  decide

/-- C8 (amended): constructed without explicit options, the engine
defaults to (number of cores - 2) workers and a batch size of 10000
resources per batch. -/
theorem engine_defaults (cores : Nat) :
    defaultNumWorkers cores = cores - 2 ∧ defaultBatchSize = 10000 :=
  ⟨rfl, rfl⟩

theorem reset_remaining (subs : List ListIterator) :
    (IteratorIterator.reset_to_first ⟨subs⟩).remaining
      = (subs.map (fun s => s.elems)).flatten := by
  simp only [IteratorIterator.reset_to_first, IteratorIterator.remaining, List.map_map]
  have h : (ListIterator.remaining ∘ ListIterator.reset_to_first)
      = fun s : ListIterator => s.elems := by
    funext s
    simp [ListIterator.remaining, ListIterator.reset_to_first]
  rw [h]

/-- C9: for every list of sub-iterators, resetting the IteratorIterator
and traversing it by repeated next yields exactly the concatenation of
the sub-iterators' resources in list order (so next moves to the next
sub-iterator once one is exhausted and yields null exactly when the
whole concatenation is consumed); its length is the sum of the
sub-iterators' lengths, and after the reset the first next call yields
the first element of the first sub-iterator. -/
theorem iteratorIterator_concat (subs : List ListIterator) :
    collectIter (IteratorIterator.len ⟨subs⟩) (IteratorIterator.reset_to_first ⟨subs⟩)
      = (subs.map (fun s => s.elems)).flatten
    ∧ IteratorIterator.len ⟨subs⟩ = (subs.map (fun s => s.elems.length)).sum
    ∧ ((IteratorIterator.reset_to_first ⟨subs⟩).next).1
      = ((subs.map (fun s => s.elems)).flatten).head? := by
  have hlen : IteratorIterator.len ⟨subs⟩ = (subs.map (fun s => s.elems.length)).sum := rfl
  have hrem := reset_remaining subs
  have hremlen : (IteratorIterator.reset_to_first ⟨subs⟩).remaining.length
      = IteratorIterator.len ⟨subs⟩ := by
    rw [hrem, hlen, List.length_flatten, List.map_map]
    rfl
  refine ⟨?_, hlen, ?_⟩
  · rw [collectIter_spec (IteratorIterator.len ⟨subs⟩)
      (IteratorIterator.reset_to_first ⟨subs⟩) (le_of_eq hremlen), hrem]
  · rw [iterIter_next_fst, hrem]

/-! ### Concrete instances -/

/-- A sample resource of entity type Flower. -/
def resFlower : Resource := ⟨"Flower", [("species", Value.vStr "setosa")]⟩

/-- A sample merge-target Species node. -/
def nodeA : Node :=
  { labels := ["Species"], properties := [("Name", Value.vStr "setosa")],
    primary_label := some "Species", primary_key := some "Name",
    primary_value := some (Value.vStr "setosa"), merge := true }

/-- A second Species node with the same merge identity as nodeA and an
extra property. -/
def nodeB : Node :=
  { labels := ["Species"],
    properties := [("Name", Value.vStr "setosa"), ("extra", Value.vInt 1)],
    primary_label := some "Species", primary_key := some "Name",
    primary_value := some (Value.vStr "setosa"), merge := true }

/-- A sample relationship factory whose endpoints are both MATCH
patterns on the Species label. -/
def rf4 : RelFactory :=
  { source := Endpoint.matchNodes [AttrFactory.lit "l" (Value.vStr "Species")] []
    target := Endpoint.matchNodes [AttrFactory.lit "l" (Value.vStr "Species")] []
    relType := AttrFactory.lit "t" (Value.vStr "likes")
    attrs := []
    primary := none }

/-- A pre-processor body that always skips (returns null). -/
def pNone : PreProc := fun _ => Except.ok none

/-- A node factory whose single attribute is wrapped in the skipping
pre-processor. -/
def nf5 : NodeFactory :=
  { labels := [AttrFactory.lit "l" (Value.vStr "Person")]
    attrs := [AttrFactory.preWrap pNone (AttrFactory.lit "a" (Value.vInt 1))]
    primary := none
    identifier := none }

/-- A node factory whose declared primary attribute is null. -/
def nf6 : NodeFactory :=
  { labels := [AttrFactory.lit "l" (Value.vStr "Person")]
    attrs := [AttrFactory.lit "ID" Value.vNull]
    primary := some 0
    identifier := none }

/-- A relationship factory referring to local node identifiers. -/
def rf7 : RelFactory :=
  { source := Endpoint.ident "flower"
    target := Endpoint.ident "species"
    relType := AttrFactory.lit "t" (Value.vStr "is")
    attrs := []
    primary := none }

/-- A MERGE_RELATION-marked relationship without a primary key. -/
def rel10 : Relationship :=
  { startN := nodeA, endN := nodeA, rtype := "likes", properties := [],
    primary_key := none, primary_value := none, merge := false, mergeAll := true }

/-- A sample three-batch converter. -/
def conv3 : Converter := initConverter "schema" [[resFlower], [resFlower], [resFlower]]

/-- Witness for C1 at a concrete run: the empty initial graph satisfies
the uniqueness hypothesis, and committing two merge-identical Species
nodes keeps every merge identity unique. -/
theorem mergeNode_at_most_one_witness :
    (∀ id, countId ([] : List Node) id ≤ 1)
    ∧ (∀ id, countId ([nodeA, nodeB].foldl commitNode []) id ≤ 1) :=
  ⟨fun _ => Nat.zero_le 1,
   (mergeNode_at_most_one [] [nodeA, nodeB] (fun _ => Nat.zero_le 1)).1⟩

/-- Witness for C4 at a concrete input: both MATCH endpoints resolve to
the two Species nodes and the factory produces 2 * 2 relationships. -/
theorem relFactory_cartesian_witness :
    resolveEndpoint [nodeA, nodeB] [] resFlower rf4.source
      = Except.ok (some [nodeA, nodeB])
    ∧ ∃ rels, rf4.construct [nodeA, nodeB] [] (some resFlower) = Except.ok rels ∧
        rels.length = [nodeA, nodeB].length * [nodeA, nodeB].length :=
  ⟨rfl,
   relFactory_cartesian rf4 [nodeA, nodeB] [] resFlower [nodeA, nodeB] [nodeA, nodeB]
     ⟨"t", Value.vStr "likes"⟩ [] rfl rfl rfl rfl⟩

/-- Witness for C5 at a concrete input: the skipping attribute
pre-processor makes the enclosing node factory produce nothing. -/
theorem construct_null_short_circuit_witness :
    pNone resFlower = Except.ok none
    ∧ nf5.construct (some resFlower) = Except.ok (none, []) :=
  ⟨rfl,
   (construct_null_short_circuit [] []).2.2.2.2 nf5 resFlower pNone
     (AttrFactory.lit "a" (Value.vInt 1)) [] [] [⟨"l", Value.vStr "Person"⟩] []
     rfl rfl rfl rfl⟩

/-- Witness for C6 at a concrete input: a node factory whose primary
attribute evaluates to null emits a non-merge node with a warning. -/
theorem nodeFactory_null_primary_witness :
    nf6.primary = some 0
    ∧ ∃ n ws, nf6.construct (some resFlower) = Except.ok (some n, ws) ∧
        n.merge = false ∧ ws ≠ [] :=
  ⟨rfl,
   nodeFactory_null_primary nf6 resFlower 0 [⟨"l", Value.vStr "Person"⟩]
     [⟨"ID", Value.vNull⟩] ⟨"ID", Value.vNull⟩ rfl rfl rfl rfl rfl⟩

/-- Witness for C7 at a concrete input: with an empty identifier map
the relationship factory referring to identifier flower is skipped. -/
theorem relFactory_missing_identifier_witness :
    List.lookup "flower" ([] : List (String × Node)) = none
    ∧ rf7.construct [] [] (some resFlower) = Except.ok [] :=
  ⟨rfl,
   (relFactory_missing_identifier rf7 [] [] resFlower "flower" rfl).1 rfl⟩

/-- Witness for C10 at a concrete input: committing two identical
marked relationships into an empty relationship set leaves exactly one
edge. -/
theorem mergeRelation_dedup_witness :
    countEdge ([] : List Relationship) rel10 = 0
    ∧ countEdge ([rel10, rel10].foldl commitRel []) rel10 = 1 :=
  ⟨rfl,
   (mergeRelation_dedup [] []).2 [] [rel10, rel10] rel10
     (by decide) (by decide) rfl⟩

/-- Witness for C2 at a concrete input. -/
theorem converter_two_phases_witness :
    ∃ A B : List Event,
      converterRun (fun _ => Subgraph.mk [nodeA] [rel10]) [resFlower]
        = A ++ Event.resetIt :: B
      ∧ readsOf A = [resFlower] ∧ readsOf B = [resFlower]
      ∧ (∀ e ∈ A, isCommitR e = false)
      ∧ (∀ e ∈ B, isCommitN e = false)
      ∧ Event.resetIt ∉ A ∧ Event.resetIt ∉ B :=
  converter_two_phases (fun _ => Subgraph.mk [nodeA] [rel10]) [resFlower]

/-- Witness for C3 at a concrete input: after failing at batch 1 of
three batches, batch 2 is uncommitted and the re-invocation commits it;
setIterator clears the checkpoint and reload_config keeps it. -/
theorem checkpoint_resume_witness :
    2 ∉ ((invoke conv3 (some 1)).1).committed
    ∧ 2 ∈ (invoke ((invoke conv3 (some 1)).1) none).2
    ∧ (setIterator conv3 []).committed = []
    ∧ (reload_config conv3 "t").committed = conv3.committed :=
  ⟨by decide,
   (checkpoint_resume conv3 1 "t" []).2.1 2 (by decide) (by decide),
   (checkpoint_resume conv3 1 "t" []).2.2.2.1,
   (checkpoint_resume conv3 1 "t" []).2.2.2.2⟩
